import Mathlib

/-!
Shallow embedding of the transaction-pool coordinator of MetalBlockchain/coreth
(`core/txpool/txpool.go`), of the validator gate (`plugin/evm/validators.go`),
and — where the repository ships only tests for a component — spec-modelled
definitions of that component.  All machine integers are modelled as `Nat`;
Go `error` results are modelled as `Option String` (with `none` meaning a nil
error) or `Except String`; Go maps are modelled as association lists.
-/

/-- Account addresses (`common.Address`), abstracted to naturals. -/
abbrev Address := Nat

/-- Chain heads (`*types.Header`), abstracted to naturals (block identity). -/
abbrev Header := Nat

/-- Transaction hashes (`common.Hash`), abstracted to naturals. -/
abbrev Hash := Nat

namespace TxPoolModel

/-! ### Reservation table (`TxPool.reservations` and `TxPool.reserver`) -/

/-- The `reservations map[common.Address]SubPool` field: an association list
from address to the owning sub-pool's registration index. -/
abbrev Reservations := List (Address × Nat)

/-- Map lookup `owner, exists := p.reservations[addr]`. -/
def lookupRes (res : Reservations) (addr : Address) : Option Nat :=
  (res.find? (fun p => p.1 == addr)).map Prod.snd

/-- Map insert `p.reservations[addr] = subpool` (address not present before). -/
def insertRes (res : Reservations) (addr : Address) (id : Nat) : Reservations :=
  (addr, id) :: res

/-- Map delete `delete(p.reservations, addr)`. -/
def deleteRes (res : Reservations) (addr : Address) : Reservations :=
  res.filter (fun p => p.1 != addr)

/-- Embeds `TxPool.reserver(id, subpool)` applied to `(addr, reserve)`: returns the
error (`none` = nil) and the reservation table after the call.  Mirrors
`txpool.go` lines 134-174; the Go code compares sub-pool identity, modelled
here by the registration index `id`. -/
def reserver (id : Nat) (addr : Address) (reserve : Bool) (res : Reservations) :
    Option String × Reservations :=
  match lookupRes res addr with
  | some owner =>
    if reserve then
      if owner == id then
        -- logged as an error, but the fault is ignored (nil returned, no change)
        (none, res)
      else
        (some "address already reserved", res)
    else
      if owner != id then
        (some "address not owned", res)
      else
        (none, deleteRes res addr)
  | none =>
    if reserve then
      (none, insertRes res addr id)
    else
      (some "address not reserved", res)

/-- Sub-pool `i` currently owns `addr` in table `res`. -/
def ownedBy (res : Reservations) (addr : Address) (i : Nat) : Prop :=
  lookupRes res addr = some i

instance (res : Reservations) (addr : Address) (i : Nat) :
    Decidable (ownedBy res addr i) := by
  unfold ownedBy; infer_instance

/-! ### Reset loop (`TxPool.loop`) -/

/-- One event the loop's `select` can receive: a chain-head notification
(`case event := <-newHeadCh`) or completion of the in-flight reset
(`case head := <-resetDone`).  `Quit` is not modelled: it only exits. -/
inductive LoopEvent where
  | newHead (h : Header)
  | resetDone
deriving DecidableEq, Repr

/-- The loop-local state of `TxPool.loop`: `oldHead`, `newHead`, and the busy
marker.  `busy = some h` records that a reset goroutine is in flight and will
send `h` on `resetDone` when finished (the goroutine sends the `newHead` it
was started with). -/
structure LoopState where
  oldHead : Header
  newHead : Header
  busy : Option Header
deriving DecidableEq, Repr

/-- The top of each loop iteration: if `newHead != oldHead`, try to inject the
busy marker and start a reset (`select { case resetBusy <- struct{}{} ... }`).
Returns the new state and the list of resets started (as `(oldHead, newHead)`
pairs); the `default:` branch starts nothing while a reset is running. -/
def maybeStart (s : LoopState) : LoopState × List (Header × Header) :=
  if s.newHead != s.oldHead then
    match s.busy with
    | none => ({ s with busy := some s.newHead }, [(s.oldHead, s.newHead)])
    | some _ => (s, [])
  else
    (s, [])

/-- The bottom of each loop iteration: block on the `select` and handle one
event.  A `newHead` event stores the head for later consumption; `resetDone`
updates `oldHead` to the completed reset's head and releases the busy
marker. -/
def handleEvent (s : LoopState) (e : LoopEvent) : LoopState :=
  match e with
  | .newHead h => { s with newHead := h }
  | .resetDone =>
    match s.busy with
    | some h => { oldHead := h, newHead := s.newHead, busy := none }
    | none => s

/-- One full iteration of the `for` loop: the start-attempt followed by one
received event. -/
def loopIter (s : LoopState) (e : LoopEvent) : LoopState × List (Header × Header) :=
  let (s', r) := maybeStart s
  (handleEvent s' e, r)

/-- Run the loop over a finite event sequence, then perform the trailing
start-attempt that the loop executes before blocking on the next `select`.
Returns the final state and all resets started, in order. -/
def loopRun (s : LoopState) (es : List LoopEvent) : LoopState × List (Header × Header) :=
  match es with
  | [] => maybeStart s
  | e :: rest =>
    let (s', r) := loopIter s e
    let (s'', rs) := loopRun s' rest
    (s'', r ++ rs)

/-- The calls a single reset makes: `for _, subpool := range p.subpools {
subpool.Reset(oldHead, newHead) }` — every sub-pool, sequentially, in
registration order, all with the same `(oldHead, newHead)` pair. -/
def resetCalls (numSubpools : Nat) (oldHead newHead : Header) :
    List (Nat × Header × Header) :=
  (List.range numSubpools).map (fun i => (i, oldHead, newHead))

/-- The burst scenario of the coalescing property: a reset to head `b` is in
flight (old head `o`), the heads in `heads` are notified while it runs, then
the in-flight reset completes.  Returns the resets the loop starts during and
right after the burst. -/
def burstResets (o b : Header) (heads : List Header) : List (Header × Header) :=
  (loopRun ⟨o, b, some b⟩ (heads.map LoopEvent.newHead ++ [LoopEvent.resetDone])).2

/-! ### Sub-pools and `TxPool.Add` -/

/-- A transaction (`*txpool.Transaction`), identified by its hash. -/
structure Tx where
  hash : Hash
deriving DecidableEq, Repr

/-- The slice of the `SubPool` interface that `TxPool.Add` consumes: the kind
acceptance test `Filter(tx)` and the batch `Add(txs, local, sync)` returning
one error slot per input transaction. -/
structure SubPool where
  filter : Tx → Bool
  add : List Tx → List (Option String)

/-- Embeds `core.ErrTxTypeNotSupported`, the error for a transaction claimed by no
sub-pool. -/
def errTxTypeNotSupported : String := "transaction type not supported"

/-- The index of the first sub-pool whose `Filter` claims `tx` (the inner
`for j, subpool := range p.subpools { if subpool.Filter(tx.Tx) ... break }`). -/
def firstClaim (pools : List SubPool) (tx : Tx) : Option Nat :=
  match pools with
  | [] => none
  | sp :: rest => if sp.filter tx then some 0 else (firstClaim rest tx).map (· + 1)

/-- The partition handed to sub-pool `j`: `txsets[j]`, the input transactions
claimed first by sub-pool `j`, in input order. -/
def txset (pools : List SubPool) (txs : List Tx) (j : Nat) : List Tx :=
  txs.filter (fun tx => firstClaim pools tx == some j)

/-- Embeds `splits` as computed by `TxPool.Add`: for each input transaction, the
index of the sub-pool it went to (`none` models `-1`). -/
def splitsOf (pools : List SubPool) (txs : List Tx) : List (Option Nat) :=
  txs.map (firstClaim pools)

/-- The reassembly loop of `TxPool.Add`: walk `splits` in input order; a
`none` slot yields the unsupported-kind error, a `some j` slot pops the front
of `errsets[j]`. -/
def pieceBack (splits : List (Option Nat)) (errsets : List (List (Option String))) :
    List (Option String) :=
  match splits with
  | [] => []
  | none :: rest => some errTxTypeNotSupported :: pieceBack rest errsets
  | some j :: rest =>
    (errsets.getD j []).headD none ::
      pieceBack rest (errsets.set j (errsets.getD j []).tail)

/-- A concrete sub-pool for evaluating the embedding: accepts transactions
with an even hash and reports a nil error for each submitted transaction. -/
def evenSubPool : SubPool :=
  ⟨fun tx => tx.hash % 2 == 0, fun ts => ts.map (fun _ => none)⟩

/-- Embeds `TxPool.Add(txs, local, sync)` (the error-relevant dataflow): split the
batch by acceptance filter, feed each partition to its sub-pool, and piece
the per-sub-pool error slices back into the original input order. -/
def txPoolAdd (pools : List SubPool) (txs : List Tx) : List (Option String) :=
  let errsets := (List.range pools.length).map
    (fun j => ((pools.getD j ⟨fun _ => false, fun _ => []⟩).add (txset pools txs j)))
  pieceBack (splitsOf pools txs) errsets

/-! ### Construction (`New`) and unwinding -/

/-- Observable actions during `New`: a sub-pool `Init`, a sub-pool `Close`
during unwinding, and the start of the reset-loop goroutine. -/
inductive NewAction where
  | initSubpool (i : Nat)
  | closeSubpool (i : Nat)
  | startLoop
deriving DecidableEq, Repr

/-- The unwinding loop `for j := i - 1; j >= 0; j-- { subpools[j].Close() }`:
closes sub-pools `i-1, i-2, …, 0` in that order. -/
def unwind : Nat → List NewAction
  | 0 => []
  | j + 1 => NewAction.closeSubpool j :: unwind j

/-- The `for i, subpool := range subpools` initialization loop of `New`,
starting at index `i`.  `inits[k] = true` means sub-pool `k`'s `Init`
succeeds.  Returns whether construction succeeds and the action trace. -/
def newLoop (inits : List Bool) (i : Nat) : Bool × List NewAction :=
  match inits with
  | [] => (true, [])
  | ok :: rest =>
    if ok then
      let (succ, tr) := newLoop rest (i + 1)
      (succ, NewAction.initSubpool i :: tr)
    else
      (false, NewAction.initSubpool i :: unwind i)

/-- Embeds `New(gasTip, chain, subpools)`: run the init loop; on success start the
reset-loop goroutine and return a pool (`true`), on failure return the error
with no pool (`false`) and no loop started. -/
def newPool (inits : List Bool) : Bool × List NewAction :=
  let (succ, tr) := newLoop inits 0
  if succ then (true, tr ++ [NewAction.startLoop]) else (false, tr)

/-! ### `TxPool.Nonce` -/

/-- Embeds `TxPool.Nonce(addr)`: the fold
`var nonce uint64; for ... { if next := subpool.Nonce(addr); nonce < next { nonce = next } }`
over the sub-pools' `Nonce` answers. -/
def txPoolNonce (nonces : List (Address → Nat)) (addr : Address) : Nat :=
  nonces.foldl (fun acc f => if acc < f addr then f addr else acc) 0

/-! ### `GasTip` / `SetGasTip` with explicit `big.Int` heap -/

/-- A heap of `big.Int` cells; a `*big.Int` is an index into it. -/
abbrev Heap := List Int

/-- Embeds `new(big.Int).Set(v)`: allocate a fresh cell holding a copy of the value
at `src`.  Returns the grown heap and the fresh pointer. -/
def allocCopy (h : Heap) (src : Nat) : Heap × Nat :=
  (h ++ [h.getD src 0], h.length)

/-- In-place mutation of a `big.Int` cell (what a caller could later do to a
pointer it holds). -/
def heapWrite (h : Heap) (r : Nat) (v : Int) : Heap :=
  h.set r v

/-- Embeds `SetGasTip(tip)` (the stored-value part): `p.gasTip.Store(new(big.Int).Set(tip))`.
Returns the heap after the defensive copy and the pointer now stored in
`p.gasTip`. -/
def setGasTip (h : Heap) (tip : Nat) : Heap × Nat :=
  allocCopy h tip

/-- Embeds `GasTip()`: `return new(big.Int).Set(p.gasTip.Load())` — a defensive copy
of the stored cell.  Returns the heap after allocation and the returned
pointer. -/
def gasTipGet (h : Heap) (stored : Nat) : Heap × Nat :=
  allocCopy h stored

/-! ### `TxPool.Locals` -/

/-- Embeds `TxPool.Locals()`: insert every sub-pool's locals into a set
(`locals[local] = struct{}{}`), then flatten.  The Go map is modelled as a
duplicate-free list built by first-occurrence insertion. -/
def txPoolLocals (subLocals : List (List Address)) : List Address :=
  (subLocals.flatten).foldl (fun acc a => if a ∈ acc then acc else acc ++ [a]) []

end TxPoolModel

namespace MempoolModel

/-!
### Mempool with bloom membership filter

Modelled from the spec: the `Mempool` implementation (`NewMempool`, `Add`,
`Has`, and its `bloom` field) is not under `src/` — only its test
`TestMempoolAddTx` is.  Per the spec, the Mempool is a bounded, deduplicated
holding area backed by a probabilistic membership filter that yields false
positives but never false negatives for currently held transactions; `Add`
inserts a transaction and updates the filter, evicting only when storage
exceeds capacity.
-/

/-- The filter's salted hash of a transaction hash.  The concrete mixing
function is irrelevant to the no-false-negative property; what matters is
that insertion and query use the same salt. -/
def bloomKey (salt : Nat) (h : Hash) : Nat :=
  salt + h

/-- The probabilistic membership filter, modelled as the set of keys inserted
since the last rebuild (a bloom filter reports "possibly present" for every
key inserted into it; over-approximation — the false positives — does not
matter for soundness of held elements). -/
structure Bloom where
  salt : Nat
  keys : List Nat
deriving Repr

/-- Filter query: `bloom.Has(tx)` — reports possibly-present. -/
def bloomHas (b : Bloom) (h : Hash) : Bool :=
  b.keys.contains (bloomKey b.salt h)

/-- Filter insertion: `bloom.Add(tx)`. -/
def bloomAdd (b : Bloom) (h : Hash) : Bloom :=
  { b with keys := bloomKey b.salt h :: b.keys }

/-- The Mempool: capacity bound, held transaction hashes (oldest last), and
the membership filter. -/
structure Mempool where
  maxSize : Nat
  txs : List Hash
  bloom : Bloom
deriving Repr

/-- Models `NewMempool(chainID, maxSize, ...)`. -/
def newMempool (maxSize : Nat) (salt : Nat) : Mempool :=
  { maxSize := maxSize, txs := [], bloom := { salt := salt, keys := [] } }

/-- Models `Mempool.Has(hash)`: membership in storage. -/
def mempoolHas (m : Mempool) (h : Hash) : Bool :=
  m.txs.contains h

/-- Rebuild the filter over current contents (the eviction path: the filter
does not support deletion, so it is rebuilt wholesale). -/
def rebuildBloom (salt : Nat) (txs : List Hash) : Bloom :=
  { salt := salt, keys := txs.map (bloomKey salt) }

/-- Models `Mempool.Add(tx)`: fail with "duplicate" when the filter matches and
storage confirms presence; otherwise insert at the front, update the filter,
and when storage exceeds capacity evict the oldest entries and rebuild the
filter over the survivors. -/
def mempoolAdd (m : Mempool) (h : Hash) : Except String Mempool :=
  if bloomHas m.bloom h && mempoolHas m h then
    .error "duplicate transaction"
  else if (h :: m.txs).length ≤ m.maxSize then
    .ok { m with txs := h :: m.txs, bloom := bloomAdd m.bloom h }
  else
    .ok { m with
      txs := (h :: m.txs).take m.maxSize,
      bloom := rebuildBloom m.bloom.salt ((h :: m.txs).take m.maxSize) }

/-- Add a list of transactions in order, stopping at the first error. -/
def mempoolAddAll (m : Mempool) (hs : List Hash) : Except String Mempool :=
  match hs with
  | [] => .ok m
  | h :: rest =>
    match mempoolAdd m h with
    | .ok m' => mempoolAddAll m' rest
    | .error e => .error e

end MempoolModel

namespace GossipModel

/-!
### Validator gating of pull-gossip requests

`validatorSet.Has` is embedded from `plugin/evm/validators.go`.  The handler
that consumes it is modelled from the spec: the pull-gossip request handler
(the p2p gossip middleware wiring) is not under `src/` — only the tests
`TestEthTxGossip`/`TestAtomicTxGossip` are.  Per the spec, on an inbound
`PullGossipRequest` the responder verifies the sender against the validator
set at the coordinator's current observed height; unknown requesters are
silently dropped (no response, no error), and a validator receives a
well-formed `PullGossipResponse`, possibly empty.
-/

/-- Node identifiers (`ids.NodeID`), abstracted to naturals. -/
abbrev NodeID := Nat

/-- Embeds `validatorSet` from `plugin/evm/validators.go`: a set of node IDs
(`set.Set[ids.NodeID]`, modelled as a list considered up to membership). -/
structure ValidatorSet where
  set : List NodeID

/-- Embeds `validatorSet.Has(ctx, nodeID)`: `return v.set.Contains(nodeID)`. -/
def ValidatorSet.Has (v : ValidatorSet) (nodeID : NodeID) : Bool :=
  v.set.contains nodeID

/-- One entry of `GetValidatorSet(height, subnetID)`: node ID and stake
weight. -/
structure ValidatorOutput where
  nodeID : NodeID
  weight : Nat

/-- Modelled from the spec: the validator set at the coordinator's current
height is the node-ID set of `GetValidatorSet`'s answer at that height. -/
def gateSet (vdrs : List ValidatorOutput) : ValidatorSet :=
  { set := vdrs.map (fun v => v.nodeID) }

/-- A `PullGossipResponse { gossip: list<bytes> }`. -/
structure PullGossipResponse where
  gossip : List Hash
deriving Repr

/-- Modelled from the spec: the responder side of pull gossip.  The sender is
checked against the validator set via `validatorSet.Has`; a non-validator is
silently dropped (`none`, no response sent), a validator receives the held
transactions absent from the request's filter (possibly none). -/
def handlePullGossip (vdrs : List ValidatorOutput) (sender : NodeID)
    (held : List Hash) (requesterFilter : Hash → Bool) :
    Option PullGossipResponse :=
  if (gateSet vdrs).Has sender then
    some { gossip := held.filter (fun h => !requesterFilter h) }
  else
    none

end GossipModel

/-! ## Theorems -/

namespace TxPoolModel

/-- C1. Reservation exclusivity: an account is owned by at most one sub-pool;
an acquire for an account owned by a different sub-pool fails with "address
already reserved" and leaves the table unchanged; an acquire by the owning
sub-pool itself succeeds with the table unchanged (the logged no-op). -/
theorem reserve_exclusive (res : Reservations) (addr : Address) (i j : Nat)
    (hj : ownedBy res addr j) :
    (ownedBy res addr i → i = j) ∧
    (i ≠ j → reserver i addr true res = (some "address already reserved", res)) ∧
    reserver j addr true res = (none, res) := by
  unfold ownedBy at hj
  refine ⟨fun hi => ?_, fun hne => ?_, ?_⟩
  · unfold ownedBy at hi
    exact Option.some.inj (hi ▸ hj.symm) |>.symm ▸ rfl
  · simp [reserver, hj]
    intro h
    exact absurd h.symm hne
  · simp [reserver, hj]

/-- Witness for C1 at a concrete table. -/
theorem reserve_exclusive_witness :
    (ownedBy [(5, 0)] 5 1 → 1 = 0) ∧
    (1 ≠ 0 → reserver 1 5 true [(5, 0)] = (some "address already reserved", [(5, 0)])) ∧
    reserver 0 5 true [(5, 0)] = (none, [(5, 0)]) :=
  reserve_exclusive [(5, 0)] 5 1 0 (by decide)

/-- C4. Unreserve error handling: a release for an account the calling
sub-pool does not own always fails (with one of the two "not owned"-kind
errors) and leaves the reservation table unchanged.  The embedding is a total
function, so the failure is an error value, never a panic. -/
theorem unreserve_not_owned (res : Reservations) (addr : Address) (id : Nat)
    (h : lookupRes res addr ≠ some id) :
    ∃ e, reserver id addr false res = (some e, res) ∧
      (e = "address not reserved" ∨ e = "address not owned") := by
  unfold reserver
  cases howner : lookupRes res addr with
  | none => exact ⟨"address not reserved", by simp, Or.inl rfl⟩
  | some owner =>
    refine ⟨"address not owned", ?_, Or.inr rfl⟩
    have hne : owner ≠ id := fun heq => h (heq ▸ howner)
    simp [hne]

/-- Witness for C4 at a concrete table. -/
theorem unreserve_not_owned_witness :
    ∃ e, reserver 0 7 false [(7, 1)] = (some e, [(7, 1)]) ∧
      (e = "address not reserved" ∨ e = "address not owned") :=
  unreserve_not_owned [(7, 1)] 7 0 (by decide)

end TxPoolModel

namespace TxPoolModel

/-- While the busy marker is held, the start-attempt at the top of the loop
starts nothing and changes nothing. -/
theorem maybeStart_busy (o nh b : Header) :
    maybeStart ⟨o, nh, some b⟩ = (⟨o, nh, some b⟩, []) := by
  unfold maybeStart
  split <;> rfl

/-- Running the loop with a reset to `b` in flight over head notifications
followed by that reset's completion: no reset starts during the burst, and the
state after `resetDone` performs a single trailing start-attempt from
`oldHead = b` towards the last notified head. -/
theorem loopRun_inflight (heads : List Header) : ∀ o nh b : Header,
    loopRun ⟨o, nh, some b⟩ (heads.map LoopEvent.newHead ++ [LoopEvent.resetDone]) =
      maybeStart ⟨b, heads.getLastD nh, none⟩ := by
  induction heads with
  | nil =>
    intro o nh b
    simp [loopRun, loopIter, maybeStart_busy, handleEvent]
  | cons h rest ih =>
    intro o nh b
    have hlast : (h :: rest).getLastD nh = rest.getLastD h := List.getLastD_cons ..
    simp only [List.map_cons, List.cons_append, loopRun, loopIter, maybeStart_busy,
      handleEvent, hlast, List.append_eq, List.nil_append, ih o h b, Prod.mk.eta]

/-- C2. Reset coalescing: during a burst of head notifications delivered while
a reset is in flight, at most one further reset starts (in-flight + 1 in
total); every started reset advances from the completed reset's head `b` to
the latest notified head; if the latest head differs from `b`, exactly that
one reset starts; no reset ever starts while one is in flight; and a reset
invokes sub-pool `k`'s `Reset` as the `k`-th call, every call carrying the
same `(oldHead, newHead)` pair. -/
theorem loop_reset_coalescing (o b : Header) (heads : List Header) (hne : heads ≠ []) :
    (burstResets o b heads).length ≤ 1 ∧
    (∀ r ∈ burstResets o b heads, r = (b, heads.getLast hne)) ∧
    (heads.getLast hne ≠ b → burstResets o b heads = [(b, heads.getLast hne)]) ∧
    (∀ s : LoopState, s.busy.isSome → (maybeStart s).2 = []) ∧
    (∀ n oldH newH k, k < n → (resetCalls n oldH newH)[k]? = some (k, oldH, newH)) := by
  have hrun : burstResets o b heads = (maybeStart ⟨b, heads.getLast hne, none⟩).2 := by
    rw [burstResets, loopRun_inflight heads o b b, List.getLastD_eq_getLast?,
      List.getLast?_eq_getLast heads hne]
    rfl
  have hstart : ∀ L : Header, (maybeStart ⟨b, L, none⟩).2 =
      if L ≠ b then [(b, L)] else [] := by
    intro L
    unfold maybeStart
    rcases eq_or_ne L b with hLb | hLb <;> simp [hLb]
  refine ⟨?_, ?_, ?_, ?_, ?_⟩
  · rw [hrun, hstart]
    split <;> simp
  · intro r hr
    rw [hrun, hstart] at hr
    rcases eq_or_ne (heads.getLast hne) b with hLb | hLb <;> simp [hLb] at hr
    exact hr
  · intro hLb
    rw [hrun, hstart]
    simp [hLb]
  · intro s hbusy
    rcases s with ⟨so, sn, sb⟩
    cases sb with
    | none => simp at hbusy
    | some h => exact congrArg Prod.snd (maybeStart_busy so sn h)
  · intro n oldH newH k hk
    simp [resetCalls, List.getElem?_range, hk]

/-- Witness for C2: with old head 1 and a reset to head 2 in flight, notifying
heads 3 then 4 and completing the reset starts exactly one further reset,
from 2 to the latest head 4. -/
theorem loop_reset_coalescing_witness :
    (burstResets 1 2 [3, 4]).length ≤ 1 ∧
    (∀ r ∈ burstResets 1 2 [3, 4], r = (2, 4)) ∧
    ((4 : Header) ≠ 2 → burstResets 1 2 [3, 4] = [(2, 4)]) ∧
    (∀ s : LoopState, s.busy.isSome → (maybeStart s).2 = []) ∧
    (∀ n oldH newH k, k < n → (resetCalls n oldH newH)[k]? = some (k, oldH, newH)) :=
  loop_reset_coalescing 1 2 [3, 4] (by decide)

end TxPoolModel

namespace TxPoolModel

/-- The reassembled error slice always has the length of `splits`, i.e. of the
input batch. -/
theorem pieceBack_length (splits : List (Option Nat)) :
    ∀ errsets, (pieceBack splits errsets).length = splits.length := by
  induction splits with
  | nil => intro es; rfl
  | cons s rest ih =>
    intro es
    cases s with
    | none => simp [pieceBack, ih]
    | some j => simp [pieceBack, ih]

/-- A sub-pool index produced by the acceptance scan is in range. -/
theorem firstClaim_lt (pools : List SubPool) (tx : Tx) :
    ∀ j, firstClaim pools tx = some j → j < pools.length := by
  induction pools with
  | nil => intro j h; simp [firstClaim] at h
  | cons sp rest ih =>
    intro j h
    unfold firstClaim at h
    by_cases hf : sp.filter tx
    · simp [hf] at h
      simp [List.length_cons]
      omega
    · simp [hf, Option.map_eq_some'] at h
      obtain ⟨k, hk, rfl⟩ := h
      have := ih k hk
      simp [List.length_cons]
      omega

/-- Reading via `getD` through `tail` shifts the index by one. -/
theorem tail_getD {α : Type} (l : List α) (n : Nat) (d : α) :
    l.tail.getD n d = l.getD (n + 1) d := by
  cases l with
  | nil => rfl
  | cons a t => simp [List.getD_cons_succ]

/-- Reading via `getD` after `set` at the written index. -/
theorem getD_set_self {α : Type} (l : List α) (i : Nat) (a d : α) (h : i < l.length) :
    (l.set i a).getD i d = a := by
  rw [List.getD_eq_getElem?_getD, List.getElem?_set_self h]
  rfl

/-- Reading via `getD` after `set` at a different index. -/
theorem getD_set_ne {α : Type} (l : List α) (i j : Nat) (a d : α) (h : i ≠ j) :
    (l.set i a).getD j d = l.getD j d := by
  rw [List.getD_eq_getElem?_getD, List.getElem?_set_ne h, ← List.getD_eq_getElem?_getD]

/-- Characterization of the reassembly loop: slot `i` of the pieced-back
error slice is the unsupported-kind error when `splits[i]` is `none`, and
otherwise the entry of `errsets[j]` at the number of earlier slots also
assigned to sub-pool `j` (the position of transaction `i` inside its
partition). -/
theorem pieceBack_getD (splits : List (Option Nat)) :
    ∀ (errsets : List (List (Option String))) (i : Nat), i < splits.length →
    (∀ j, some j ∈ splits → j < errsets.length) →
    (pieceBack splits errsets).getD i none =
      match splits.getD i none with
      | none => some errTxTypeNotSupported
      | some j => (errsets.getD j []).getD
          ((splits.take i).filter (fun s => s == some j)).length none := by
  induction splits with
  | nil =>
    intro es i hi
    exact absurd hi (by simp)
  | cons s rest ih =>
    intro es i hi hvalid
    cases s with
    | none =>
      cases i with
      | zero => simp [pieceBack]
      | succ k =>
        have hk : k < rest.length := by simpa using hi
        have hv : ∀ j, some j ∈ rest → j < es.length :=
          fun j hj => hvalid j (List.mem_cons_of_mem _ hj)
        have hrec := ih es k hk hv
        cases hrk : rest.getD k none with
        | none =>
          simp only [pieceBack, List.getD_cons_succ, hrec, hrk]
        | some j =>
          simp only [pieceBack, List.getD_cons_succ, hrec, hrk, List.take_succ_cons,
            List.filter_cons]
          norm_num
    | some j0 =>
      have hj0 : j0 < es.length := hvalid j0 (List.mem_cons_self _ _)
      cases i with
      | zero =>
        have hh : ∀ l : List (Option String), l.headD none = l.getD 0 none := by
          intro l
          cases l <;> rfl
        simp only [pieceBack, List.getD_cons_zero, List.take_zero, List.filter_nil,
          List.length_nil, hh]
      | succ k =>
        have hk : k < rest.length := by simpa using hi
        have hv : ∀ j, some j ∈ rest → j < (es.set j0 (es.getD j0 []).tail).length := by
          intro j hj
          rw [List.length_set]
          exact hvalid j (List.mem_cons_of_mem _ hj)
        have hrec := ih (es.set j0 (es.getD j0 []).tail) k hk hv
        cases hrk : rest.getD k none with
        | none =>
          simp only [pieceBack, List.getD_cons_succ, hrec, hrk]
        | some j =>
          by_cases hjj : j = j0
          · subst hjj
            have hset : (es.set j (es.getD j []).tail).getD j [] = (es.getD j []).tail :=
              getD_set_self es j _ [] hj0
            have hcnt : List.filter (fun s => s == some j) (List.take (k + 1) (some j :: rest)) =
                some j :: List.filter (fun s => s == some j) (List.take k rest) := by
              rw [List.take_succ_cons, List.filter_cons]
              simp
            simp only [pieceBack, List.getD_cons_succ, hrec, hrk, hset, tail_getD, hcnt,
              List.length_cons]
          · have hset : (es.set j0 (es.getD j0 []).tail).getD j [] = es.getD j [] :=
              getD_set_ne es j0 j _ [] (fun h => hjj h.symm)
            have hcnt : List.filter (fun s => s == some j) (List.take (k + 1) (some j0 :: rest)) =
                List.filter (fun s => s == some j) (List.take k rest) := by
              rw [List.take_succ_cons, List.filter_cons]
              simp [Ne.symm hjj]
            simp only [pieceBack, List.getD_cons_succ, hrec, hrk, hset, hcnt]

end TxPoolModel

namespace TxPoolModel

/-- C3. Add batch partitioning: under the `SubPool.Add` contract (one error
slot per submitted transaction), the coordinator's `Add` returns one error
slot per input transaction, in original input order: a transaction claimed by
no sub-pool's acceptance filter gets the unsupported-kind error in its own
slot, and a transaction first claimed by sub-pool `j` gets exactly the slot
that sub-pool `j` returned for it inside its partition — per-transaction
errors, never aborting the rest of the batch. -/
theorem txPoolAdd_spec (pools : List SubPool) (txs : List Tx)
    (_hwf : ∀ sp ∈ pools, ∀ ts, (sp.add ts).length = ts.length) :
    (txPoolAdd pools txs).length = txs.length ∧
    ∀ i tx, txs[i]? = some tx →
      (firstClaim pools tx = none →
        (txPoolAdd pools txs)[i]? = some (some errTxTypeNotSupported)) ∧
      ∀ j, firstClaim pools tx = some j →
        (txPoolAdd pools txs)[i]? =
          some (((pools.getD j ⟨fun _ => false, fun _ => []⟩).add (txset pools txs j)).getD
            (txset pools (txs.take i) j).length none) := by
  have hdef : txPoolAdd pools txs = pieceBack (splitsOf pools txs)
      ((List.range pools.length).map
        (fun j => (pools.getD j ⟨fun _ => false, fun _ => []⟩).add (txset pools txs j))) := rfl
  have hsplen : (splitsOf pools txs).length = txs.length := by simp [splitsOf]
  have hlen : (txPoolAdd pools txs).length = txs.length := by
    rw [hdef, pieceBack_length, hsplen]
  have hvalid : ∀ j, some j ∈ splitsOf pools txs →
      j < ((List.range pools.length).map
        (fun j => (pools.getD j ⟨fun _ => false, fun _ => []⟩).add (txset pools txs j))).length := by
    intro j hj
    rw [List.length_map, List.length_range]
    obtain ⟨tx, _, hfc⟩ := List.mem_map.mp hj
    exact firstClaim_lt pools tx j hfc
  refine ⟨hlen, ?_⟩
  intro i tx htx
  have hi : i < txs.length := by
    by_contra hge
    rw [List.getElem?_eq_none (Nat.le_of_not_lt hge)] at htx
    exact Option.noConfusion htx
  have hilen : i < (txPoolAdd pools txs).length := hlen ▸ hi
  have hx : (txPoolAdd pools txs)[i]? = some ((txPoolAdd pools txs).getD i none) := by
    rw [List.getD_eq_getElem?_getD, List.getElem?_eq_getElem hilen]
    rfl
  have hsget : (splitsOf pools txs).getD i none = firstClaim pools tx := by
    rw [List.getD_eq_getElem?_getD, splitsOf, List.getElem?_map, htx]
    rfl
  have hpb := pieceBack_getD (splitsOf pools txs)
    ((List.range pools.length).map
      (fun j => (pools.getD j ⟨fun _ => false, fun _ => []⟩).add (txset pools txs j)))
    i (hsplen ▸ hi) hvalid
  rw [hsget] at hpb
  constructor
  · intro hnone
    rw [hnone] at hpb
    rw [hx, hdef, hpb]
  · intro j hsome
    rw [hsome] at hpb
    have hj : j < pools.length := firstClaim_lt pools tx j hsome
    have herr : (((List.range pools.length).map
        (fun j => (pools.getD j ⟨fun _ => false, fun _ => []⟩).add (txset pools txs j))).getD j [])
        = (pools.getD j ⟨fun _ => false, fun _ => []⟩).add (txset pools txs j) := by
      rw [List.getD_eq_getElem?_getD, List.getElem?_map, List.getElem?_range hj]
      rfl
    have hcount : ((splitsOf pools txs).take i).filter (fun s => s == some j) =
        ((txs.take i).filter (fun tx => firstClaim pools tx == some j)).map
          (firstClaim pools) := by
      rw [splitsOf, ← List.map_take, List.filter_map]
      rfl
    simp only [herr, hcount, List.length_map] at hpb
    rw [hx, hdef, hpb]
    rfl

/-- Witness for C3 at a concrete pool list and batch: one sub-pool accepting
even hashes and reporting nil for every transaction, a batch with one
accepted and one unclaimed transaction. -/
theorem txPoolAdd_spec_witness :
    (txPoolAdd [evenSubPool] [⟨2⟩, ⟨3⟩]).length = ([(⟨2⟩ : Tx), ⟨3⟩]).length ∧
    ∀ (i : Nat) (tx : Tx), ([(⟨2⟩ : Tx), ⟨3⟩])[i]? = some tx →
      (firstClaim [evenSubPool] tx = none →
        (txPoolAdd [evenSubPool] [⟨2⟩, ⟨3⟩])[i]? = some (some errTxTypeNotSupported)) ∧
      ∀ j, firstClaim [evenSubPool] tx = some j →
        (txPoolAdd [evenSubPool] [⟨2⟩, ⟨3⟩])[i]? =
          some ((([evenSubPool].getD j ⟨fun _ => false, fun _ => []⟩).add
              (txset [evenSubPool] [⟨2⟩, ⟨3⟩] j)).getD
            (txset [evenSubPool] (([(⟨2⟩ : Tx), ⟨3⟩]).take i) j).length none) :=
  txPoolAdd_spec [evenSubPool] [⟨2⟩, ⟨3⟩]
    (by
      intro sp hsp ts
      rw [List.mem_singleton] at hsp
      subst hsp
      simp [evenSubPool])

end TxPoolModel

namespace TxPoolModel

/-- The unwinding loop closes sub-pools `i-1, …, 0`: exactly the first `i`
registration indices, in reverse registration order. -/
theorem unwind_reverse (i : Nat) :
    unwind i = (List.range i).reverse.map NewAction.closeSubpool := by
  induction i with
  | zero => rfl
  | succ j ih =>
    rw [unwind, ih, List.range_succ, List.reverse_append]
    rfl

/-- Every action emitted by the unwinding loop is a sub-pool close. -/
theorem unwind_mem (i : Nat) :
    ∀ a ∈ unwind i, ∃ j, a = NewAction.closeSubpool j := by
  induction i with
  | zero => intro a ha; exact absurd ha (by simp [unwind])
  | succ j ih =>
    intro a ha
    rw [unwind] at ha
    rcases List.mem_cons.mp ha with rfl | ha'
    · exact ⟨j, rfl⟩
    · exact ih a ha'

/-- The init loop, started at absolute index `base`, with the first failure at
relative position `i`: it initializes sub-pools `base..base+i`, fails, and
unwinds absolute indices `base+i-1` down to `0`. -/
theorem newLoop_fail (inits : List Bool) : ∀ (base i : Nat), i < inits.length →
    inits.getD i true = false → (∀ k, k < i → inits.getD k false = true) →
    newLoop inits base = (false,
      (List.range (i + 1)).map (fun k => NewAction.initSubpool (base + k)) ++
        unwind (base + i)) := by
  induction inits with
  | nil =>
    intro base i hi
    exact absurd hi (by simp)
  | cons ok rest ih =>
    intro base i hi hfail hok
    cases i with
    | zero =>
      have hok0 : ok = false := by simpa using hfail
      subst hok0
      simp [newLoop, List.range_succ, List.range_zero]
    | succ k =>
      have hok0 : ok = true := by simpa using hok 0 (Nat.succ_pos k)
      subst hok0
      have hk : k < rest.length := by simpa using hi
      have hfail' : rest.getD k true = false := by simpa using hfail
      have hok' : ∀ m, m < k → rest.getD m false = true := by
        intro m hm
        simpa using hok (m + 1) (Nat.succ_lt_succ hm)
      have harith : base + (k + 1) = base + 1 + k := by omega
      have hcomp : ((fun m => NewAction.initSubpool (base + m)) ∘ (· + 1)) =
          (fun m => NewAction.initSubpool (base + 1 + m)) := by
        funext m
        simp only [Function.comp]
        congr 1
        omega
      have hmap : (List.range (k + 1 + 1)).map (fun m => NewAction.initSubpool (base + m)) =
          NewAction.initSubpool base ::
            (List.range (k + 1)).map (fun m => NewAction.initSubpool (base + 1 + m)) := by
        rw [List.range_succ_eq_map, List.map_cons, List.map_map, hcomp, Nat.add_zero]
      rw [newLoop, ih (base + 1) k hk hfail' hok', harith, hmap, List.cons_append]
      rfl

/-- C7. Construction atomicity: when the first `Init` failure is at sub-pool
`i`, `New` returns no pool, its action trace is exactly the inits of
sub-pools `0..i` followed by closes of sub-pools `i-1` down to `0` in reverse
order, and the reset loop is never started. -/
theorem newPool_unwind (inits : List Bool) (i : Nat) (hi : i < inits.length)
    (hfail : inits.getD i true = false)
    (hok : ∀ k, k < i → inits.getD k false = true) :
    newPool inits = (false,
      (List.range (i + 1)).map NewAction.initSubpool ++
        (List.range i).reverse.map NewAction.closeSubpool) ∧
    NewAction.startLoop ∉ (newPool inits).2 := by
  have hloop := newLoop_fail inits 0 i hi hfail hok
  have hzero : (fun k => NewAction.initSubpool (0 + k)) = NewAction.initSubpool := by
    funext k
    simp
  have hmain : newPool inits = (false,
      (List.range (i + 1)).map NewAction.initSubpool ++
        (List.range i).reverse.map NewAction.closeSubpool) := by
    rw [newPool, hloop]
    simp only [hzero, Nat.zero_add, unwind_reverse, Bool.false_eq_true, if_false]
  refine ⟨hmain, ?_⟩
  rw [hmain]
  intro hmem
  rcases List.mem_append.mp hmem with hin | hcl
  · obtain ⟨k, _, hk⟩ := List.mem_map.mp hin
    exact NewAction.noConfusion hk
  · obtain ⟨k, _, hk⟩ := List.mem_map.mp hcl
    exact NewAction.noConfusion hk

/-- Witness for C7: three sub-pools whose second `Init` fails. -/
theorem newPool_unwind_witness :
    newPool [true, false, true] = (false,
      (List.range 2).map NewAction.initSubpool ++
        (List.range 1).reverse.map NewAction.closeSubpool) ∧
    NewAction.startLoop ∉ (newPool [true, false, true]).2 :=
  newPool_unwind [true, false, true] 1 (by decide) (by decide) (by decide)

end TxPoolModel

namespace TxPoolModel

/-- A left fold with `max` bounds every list element from above and is either
the seed or one of the elements. -/
theorem foldl_max_spec (l : List Nat) : ∀ a : Nat,
    a ≤ l.foldl max a ∧ (∀ x ∈ l, x ≤ l.foldl max a) ∧
    (l.foldl max a = a ∨ ∃ x ∈ l, l.foldl max a = x) := by
  induction l with
  | nil =>
    intro a
    exact ⟨Nat.le_refl a, by simp, Or.inl rfl⟩
  | cons y t ih =>
    intro a
    obtain ⟨h1, h2, h3⟩ := ih (max a y)
    rw [List.foldl_cons]
    refine ⟨Nat.le_trans (Nat.le_max_left a y) h1, ?_, ?_⟩
    · intro x hx
      rcases List.mem_cons.mp hx with rfl | hx'
      · exact Nat.le_trans (Nat.le_max_right a x) h1
      · exact h2 x hx'
    · rcases h3 with heq | ⟨x, hx, heq⟩
      · rcases Nat.le_total a y with hay | hya
        · exact Or.inr ⟨y, List.mem_cons_self y t, by rw [heq, Nat.max_eq_right hay]⟩
        · exact Or.inl (by rw [heq, Nat.max_eq_left hya])
      · exact Or.inr ⟨x, List.mem_cons_of_mem y hx, heq⟩

/-- C8. Nonce query: the coordinator's `Nonce(addr)` bounds every sub-pool's
nonce answer for `addr` from above, and is either zero (when every sub-pool
reports zero) or exactly one of the sub-pools' answers — it is the maximum of
the nonces reported by all sub-pools. -/
theorem txPoolNonce_max (nonces : List (Address → Nat)) (addr : Address) :
    (∀ f ∈ nonces, f addr ≤ txPoolNonce nonces addr) ∧
    (txPoolNonce nonces addr = 0 ∨
      ∃ f ∈ nonces, f addr = txPoolNonce nonces addr) := by
  have hfold : txPoolNonce nonces addr = (nonces.map (fun f => f addr)).foldl max 0 := by
    rw [txPoolNonce, List.foldl_map]
    congr 1
    funext acc f
    rcases Nat.lt_or_ge acc (f addr) with hlt | hge
    · rw [if_pos hlt, Nat.max_eq_right (Nat.le_of_lt hlt)]
    · rw [if_neg (Nat.not_lt.mpr hge), Nat.max_eq_left hge]
  obtain ⟨-, hub, heq⟩ := foldl_max_spec (nonces.map (fun f => f addr)) 0
  constructor
  · intro f hf
    rw [hfold]
    exact hub (f addr) (List.mem_map_of_mem _ hf)
  · rcases heq with hz | ⟨x, hx, hxe⟩
    · exact Or.inl (by rw [hfold, hz])
    · obtain ⟨f, hf, rfl⟩ := List.mem_map.mp hx
      exact Or.inr ⟨f, hf, by rw [hfold, hxe]⟩

/-- C9. GasTip round-trip with defensive copying: reading the gas tip after
`SetGasTip` returns the value the caller passed in; the stored cell is a
fresh copy, so later mutation of the caller's argument never changes the
stored tip; and the cell returned by `GasTip` is itself a fresh copy, so
mutating it never changes the stored tip either. -/
theorem gasTip_defensive (h : Heap) (r : Nat) (hr : r < h.length)
    (h1 : Heap) (s : Nat) (hset : setGasTip h r = (h1, s))
    (h2 : Heap) (g : Nat) (hget : gasTipGet h1 s = (h2, g)) :
    h2.getD g 0 = h.getD r 0 ∧
    s ≠ r ∧ g ≠ s ∧
    (∀ v, (heapWrite h1 r v).getD s 0 = h1.getD s 0) ∧
    (∀ v, (heapWrite h2 g v).getD s 0 = h2.getD s 0) := by
  have e1 : h ++ [h.getD r 0] = h1 := congrArg Prod.fst hset
  have e2 : h.length = s := congrArg Prod.snd hset
  have e3 : h1 ++ [h1.getD s 0] = h2 := congrArg Prod.fst hget
  have e4 : h1.length = g := congrArg Prod.snd hget
  subst e1 e2 e3 e4
  have hlen1 : (h ++ [h.getD r 0]).length = h.length + 1 := by simp
  refine ⟨?_, ?_, ?_, ?_, ?_⟩
  · rw [List.getD_eq_getElem?_getD,
      List.getElem?_append_right (Nat.le_refl (h ++ [h.getD r 0]).length), Nat.sub_self]
    rw [List.getD_eq_getElem?_getD]
    have : (h ++ [h.getD r 0])[h.length]? = some (h.getD r 0) := by
      rw [List.getElem?_append_right (Nat.le_refl h.length), Nat.sub_self]
      rfl
    rw [this]
    rfl
  · exact fun he => Nat.lt_irrefl r (he ▸ hr)
  · rw [hlen1]
    exact Nat.succ_ne_self h.length
  · intro v
    exact getD_set_ne _ r h.length v 0 (Nat.ne_of_lt hr)
  · intro v
    refine getD_set_ne _ _ h.length v 0 ?_
    rw [hlen1]
    exact (Nat.succ_ne_self h.length)
  
/-- Witness for C9 at a concrete one-cell heap. -/
theorem gasTip_defensive_witness :
    ([5, 5, 5] : Heap).getD 2 0 = ([5] : Heap).getD 0 0 ∧
    (1 : Nat) ≠ 0 ∧ (2 : Nat) ≠ 1 ∧
    (∀ v, (heapWrite [5, 5] 0 v).getD 1 0 = ([5, 5] : Heap).getD 1 0) ∧
    (∀ v, (heapWrite [5, 5, 5] 2 v).getD 1 0 = ([5, 5, 5] : Heap).getD 1 0) :=
  gasTip_defensive [5] 0 (by decide) [5, 5] 1 rfl [5, 5, 5] 2 rfl

/-- The first-occurrence insertion fold underlying `TxPool.Locals` keeps the
accumulator duplicate-free and collects exactly the union of the accumulator
and the traversed list. -/
theorem foldl_insert_spec (l : List Address) : ∀ acc : List Address, acc.Nodup →
    (l.foldl (fun acc a => if a ∈ acc then acc else acc ++ [a]) acc).Nodup ∧
    ∀ a, a ∈ l.foldl (fun acc a => if a ∈ acc then acc else acc ++ [a]) acc ↔
      (a ∈ acc ∨ a ∈ l) := by
  induction l with
  | nil =>
    intro acc hacc
    exact ⟨hacc, by simp⟩
  | cons x t ih =>
    intro acc hacc
    rw [List.foldl_cons]
    by_cases hx : x ∈ acc
    · rw [if_pos hx]
      obtain ⟨hn, hm⟩ := ih acc hacc
      refine ⟨hn, ?_⟩
      intro a
      rw [hm a, List.mem_cons]
      constructor
      · rintro (ha | ha)
        · exact Or.inl ha
        · exact Or.inr (Or.inr ha)
      · rintro (ha | rfl | ha)
        · exact Or.inl ha
        · exact Or.inl hx
        · exact Or.inr ha
    · rw [if_neg hx]
      have hacc' : (acc ++ [x]).Nodup := by
        rw [List.nodup_append]
        exact ⟨hacc, List.nodup_singleton x, List.disjoint_singleton.mpr hx⟩
      obtain ⟨hn, hm⟩ := ih (acc ++ [x]) hacc'
      refine ⟨hn, ?_⟩
      intro a
      rw [hm a, List.mem_append, List.mem_singleton, List.mem_cons]
      tauto

/-- C10. Locals deduplication: the coordinator's `Locals()` lists each
address at most once, and an address appears in the result if and only if at
least one sub-pool reports it among its locals. -/
theorem txPoolLocals_spec (subLocals : List (List Address)) :
    (txPoolLocals subLocals).Nodup ∧
    ∀ a, a ∈ txPoolLocals subLocals ↔ ∃ l ∈ subLocals, a ∈ l := by
  obtain ⟨hn, hm⟩ := foldl_insert_spec subLocals.flatten [] List.nodup_nil
  refine ⟨hn, ?_⟩
  intro a
  rw [txPoolLocals, hm a, List.mem_flatten]
  simp

end TxPoolModel

namespace MempoolModel

/-- Inserting fresh, duplicate-free transactions within capacity succeeds,
grows storage by exactly those transactions, and only ever adds keys to the
membership filter. -/
theorem mempoolAddAll_insert (hs : List Hash) : ∀ m : Mempool,
    (∀ h ∈ hs, mempoolHas m h = false) →
    m.txs.length + hs.length ≤ m.maxSize →
    hs.Nodup →
    ∃ m', mempoolAddAll m hs = .ok m' ∧
      m'.maxSize = m.maxSize ∧ m'.bloom.salt = m.bloom.salt ∧
      (∀ h, mempoolHas m' h = (mempoolHas m h || hs.contains h)) ∧
      (∀ h, bloomHas m.bloom h = true → bloomHas m'.bloom h = true) ∧
      (∀ h ∈ hs, bloomHas m'.bloom h = true) := by
  induction hs with
  | nil =>
    intro m _ _ _
    exact ⟨m, rfl, rfl, rfl, by simp, fun _ hb => hb, by simp⟩
  | cons x t ih =>
    intro m hfresh hcap hnodup
    have hxfresh : mempoolHas m x = false := hfresh x (List.mem_cons_self x t)
    have hle : (x :: m.txs).length ≤ m.maxSize := by
      simp only [List.length_cons]
      simp only [List.length_cons] at hcap
      omega
    have hadd : mempoolAdd m x =
        .ok { m with txs := x :: m.txs, bloom := bloomAdd m.bloom x } := by
      unfold mempoolAdd
      rw [hxfresh, Bool.and_false, if_neg (by simp), if_pos hle]
    have hxt : x ∉ t := (List.nodup_cons.mp hnodup).1
    have hfresh' : ∀ h ∈ t, mempoolHas
        { m with txs := x :: m.txs, bloom := bloomAdd m.bloom x } h = false := by
      intro h hh
      have hne : h ≠ x := fun e => hxt (e ▸ hh)
      have hmf : h ∉ m.txs := by
        simpa [mempoolHas] using hfresh h (List.mem_cons_of_mem x hh)
      simp [mempoolHas, List.contains_cons, hne, hmf]
    have hcap' : (x :: m.txs).length + t.length ≤ m.maxSize := by
      simp only [List.length_cons] at *
      omega
    obtain ⟨m', hall, hmax, hsalt, hhas, hpres, hnew⟩ :=
      ih { m with txs := x :: m.txs, bloom := bloomAdd m.bloom x }
        hfresh' hcap' (List.nodup_cons.mp hnodup).2
    have hbx : bloomHas (bloomAdd m.bloom x) x = true := by
      simp [bloomHas, bloomAdd]
    have hbmono : ∀ h, bloomHas m.bloom h = true → bloomHas (bloomAdd m.bloom x) h = true := by
      intro h hb
      have hb' : bloomKey m.bloom.salt h ∈ m.bloom.keys := by
        simpa [bloomHas] using hb
      simp [bloomHas, bloomAdd, List.contains_cons, hb']
    refine ⟨m', ?_, hmax, hsalt, ?_, ?_, ?_⟩
    · rw [mempoolAddAll, hadd]
      exact hall
    · intro h
      rw [hhas h]
      simp only [mempoolHas, List.contains_cons]
      rw [Bool.or_assoc, Bool.or_left_comm]
    · intro h hb
      exact hpres h (hbmono h hb)
    · intro h hh
      rcases List.mem_cons.mp hh with rfl | hh'
      · exact hpres h (hbx)
      · exact hnew h hh'

/-- C5. Membership-filter soundness: inserting duplicate-free transactions
into a fresh Mempool whose capacity bounds their number succeeds, every
inserted transaction then satisfies `Has(hash) = true`, and the membership
filter reports possibly-present for each — no false negatives for currently
held transactions. -/
theorem mempool_no_false_negatives (cap salt : Nat) (hs : List Hash)
    (hlen : hs.length ≤ cap) (hnodup : hs.Nodup) :
    ∃ m, mempoolAddAll (newMempool cap salt) hs = Except.ok m ∧
      ∀ h ∈ hs, mempoolHas m h = true ∧ bloomHas m.bloom h = true := by
  obtain ⟨m, hall, _, _, hhas, _, hbloom⟩ := mempoolAddAll_insert hs (newMempool cap salt)
    (fun _ _ => rfl)
    (by simpa [newMempool] using hlen)
    hnodup
  refine ⟨m, hall, fun h hh => ⟨?_, hbloom h hh⟩⟩
  rw [hhas h]
  simp [newMempool, mempoolHas, hh]

/-- Witness for C5: a fresh Mempool of capacity 5000 absorbing three
distinct-hash transactions. -/
theorem mempool_no_false_negatives_witness :
    ∃ m, mempoolAddAll (newMempool 5000 0) [10, 11, 12] = Except.ok m ∧
      ∀ h ∈ [10, 11, 12], mempoolHas m h = true ∧ bloomHas m.bloom h = true :=
  mempool_no_false_negatives 5000 0 [10, 11, 12] (by decide) (by decide)

end MempoolModel

namespace GossipModel

/-- C6. Validator gating: a pull-gossip request from a sender absent from the
validator set at the coordinator's current height gets no response at all,
while a sender present in that set with nonzero weight gets a well-formed
`PullGossipResponse` — the held transactions absent from the requester's
filter, possibly none. -/
theorem pullGossip_gating (vdrs : List ValidatorOutput) (sender : NodeID)
    (held : List Hash) (filt : Hash → Bool) :
    ((¬ ∃ v ∈ vdrs, v.nodeID = sender) →
      handlePullGossip vdrs sender held filt = none) ∧
    ((∃ v ∈ vdrs, v.nodeID = sender ∧ 0 < v.weight) →
      handlePullGossip vdrs sender held filt =
        some { gossip := held.filter (fun h => !filt h) }) := by
  have hmem : (gateSet vdrs).Has sender = true ↔ ∃ v ∈ vdrs, v.nodeID = sender := by
    simp [ValidatorSet.Has, gateSet, List.mem_map]
  constructor
  · intro hno
    unfold handlePullGossip
    exact if_neg (fun hc => hno (hmem.mp hc))
  · rintro ⟨v, hv, hvs, -⟩
    unfold handlePullGossip
    exact if_pos (hmem.mpr ⟨v, hv, hvs⟩)

/-- Witness for C6: a one-validator set; node 8 (absent) is dropped, node 7
(present, weight 1) receives the well-formed response. -/
theorem pullGossip_gating_witness :
    handlePullGossip [⟨7, 1⟩] 8 [1] (fun _ => false) = none ∧
    handlePullGossip [⟨7, 1⟩] 7 [1] (fun _ => false) =
      some { gossip := [1].filter (fun h => !(fun _ : Hash => false) h) } :=
  ⟨(pullGossip_gating [⟨7, 1⟩] 8 [1] (fun _ => false)).1 (by simp),
   (pullGossip_gating [⟨7, 1⟩] 7 [1] (fun _ => false)).2
     ⟨⟨7, 1⟩, List.mem_singleton_self _, rfl, Nat.one_pos⟩⟩

end GossipModel

namespace TxPoolModel

/-- Witness for C8 at two concrete sub-pool nonce functions. -/
theorem txPoolNonce_max_witness :
    (∀ f ∈ [fun _ : Address => 3, fun _ : Address => 7],
      f 0 ≤ txPoolNonce [fun _ : Address => 3, fun _ : Address => 7] 0) ∧
    (txPoolNonce [fun _ : Address => 3, fun _ : Address => 7] 0 = 0 ∨
      ∃ f ∈ [fun _ : Address => 3, fun _ : Address => 7],
        f 0 = txPoolNonce [fun _ : Address => 3, fun _ : Address => 7] 0) :=
  txPoolNonce_max [fun _ : Address => 3, fun _ : Address => 7] 0

/-- Witness for C10 at two concrete overlapping local sets. -/
theorem txPoolLocals_spec_witness :
    (txPoolLocals [[1, 2], [2, 3]]).Nodup ∧
    ∀ a, a ∈ txPoolLocals [[1, 2], [2, 3]] ↔ ∃ l ∈ [[1, 2], [2, 3]], a ∈ l :=
  txPoolLocals_spec [[1, 2], [2, 3]]

end TxPoolModel
